import Mathlib

/-!
Verification of `plasmapy/physics/magnetostatics.py`.

The module computes static magnetic fields of idealized current sources
(a point dipole and several wire classes) via the Biot–Savart law.  We embed
the numeric core shallowly: 3-vectors of real numbers with the numpy
operations used by the code (`dot`, `cross`, `linalg.norm`), and each class
as a structure whose `magnetic_field` def mirrors the Python body line by
line.  Fallible constructors (those that can raise `ValueError`) are
embedded as `Option`-returning functions.  `constants.mu0.value` is the SI
vacuum permeability `4π·10⁻⁷`.
-/

namespace Magnetostatics

open Real

/-- A three-dimensional real vector (a numpy array of shape `(3,)`). -/
structure Vec3 where
  x : ℝ
  y : ℝ
  z : ℝ

namespace Vec3

instance : Zero Vec3 := ⟨⟨0, 0, 0⟩⟩
instance : Add Vec3 := ⟨fun a b => ⟨a.x + b.x, a.y + b.y, a.z + b.z⟩⟩
instance : Sub Vec3 := ⟨fun a b => ⟨a.x - b.x, a.y - b.y, a.z - b.z⟩⟩
instance : Neg Vec3 := ⟨fun a => ⟨-a.x, -a.y, -a.z⟩⟩
instance : SMul ℝ Vec3 := ⟨fun c a => ⟨c * a.x, c * a.y, c * a.z⟩⟩

/-- `np.dot` of two 3-vectors. -/
def dot (a b : Vec3) : ℝ := a.x * b.x + a.y * b.y + a.z * b.z

/-- `np.cross` of two 3-vectors. -/
def cross (a b : Vec3) : Vec3 :=
  ⟨a.y * b.z - a.z * b.y, a.z * b.x - a.x * b.z, a.x * b.y - a.y * b.x⟩

/-- `np.linalg.norm`: the Euclidean norm. -/
noncomputable def norm (a : Vec3) : ℝ := Real.sqrt (dot a a)

end Vec3

open Vec3

/-- `constants.mu0.value`: the vacuum permeability in SI units. -/
noncomputable def mu0 : ℝ := 4 * Real.pi * (1 / 10000000)

/-! ### GeneralWire -/

/-- A wire described by a parametric curve `parametric_eq : ℝ → ℝ³` on
`[t1, t2]`, carrying `current` (SI numeric values). -/
structure GeneralWire where
  parametric_eq : ℝ → Vec3
  t1 : ℝ
  t2 : ℝ
  current : ℝ

/-- `GeneralWire.__init__`: raises `ValueError` unless `t1 < t2`.  (The
callability check on `parametric_eq` is vacuous here: a Lean function is
always callable.) -/
noncomputable def GeneralWire.make (f : ℝ → Vec3) (t1 t2 current : ℝ) :
    Option GeneralWire :=
  if t1 < t2 then some ⟨f, t1, t2, current⟩ else none

/-- One iteration (0-based `i`) of the `GeneralWire.magnetic_field` loop as
the code executes it: since `p1 = p2` is assigned *before*
`R = p - (p2 + p1)/2`, that expression evaluates to `R = p - p2`, the
displacement from the segment's *endpoint*. -/
noncomputable def GeneralWire.term_code (f : ℝ → Vec3) (t1 step : ℝ) (p : Vec3)
    (i : ℕ) : Vec3 :=
  let pa := f (t1 + i * step)
  let pb := f (t1 + (i + 1) * step)
  let dl := pb - pa
  let R := p - pb
  (norm R ^ 3)⁻¹ • cross dl R

/-- Partial sums of the loop: `bsum f t1 step p n` accumulates iterations
`0, …, n-1` in loop order. -/
noncomputable def GeneralWire.bsum (f : ℝ → Vec3) (t1 step : ℝ) (p : Vec3) :
    ℕ → Vec3
  | 0 => 0
  | i + 1 => GeneralWire.bsum f t1 step p i + GeneralWire.term_code f t1 step p i

/-- `GeneralWire.magnetic_field(p, n)`:
the accumulated sum scaled by `mu0/4/pi*current`. -/
noncomputable def GeneralWire.magnetic_field (w : GeneralWire) (n : ℕ) (p : Vec3) :
    Vec3 :=
  (mu0 / 4 / Real.pi * w.current) •
    GeneralWire.bsum w.parametric_eq w.t1 ((w.t2 - w.t1) / (n : ℝ)) p n

/-- One step of the algorithm as the spec states it: `dl_i = p_i − p_{i-1}`,
midpoint `m_i = (p_{i-1}+p_i)/2`, `R_i = point − m_i`, term
`(dl_i × R_i)/|R_i|³`. -/
noncomputable def GeneralWire.term_spec (f : ℝ → Vec3) (t1 step : ℝ) (p : Vec3)
    (i : ℕ) : Vec3 :=
  let pa := f (t1 + i * step)
  let pb := f (t1 + (i + 1) * step)
  let dl := pb - pa
  let R := p - (1 / 2 : ℝ) • (pa + pb)
  (norm R ^ 3)⁻¹ • cross dl R

/-- Partial sums of the spec's algorithm. -/
noncomputable def GeneralWire.bsum_spec (f : ℝ → Vec3) (t1 step : ℝ) (p : Vec3) :
    ℕ → Vec3
  | 0 => 0
  | i + 1 => GeneralWire.bsum_spec f t1 step p i + GeneralWire.term_spec f t1 step p i

/-- The field as the spec states it: the midpoint-rule sum scaled by
`μ0·I/4π`. -/
noncomputable def GeneralWire.field_spec (w : GeneralWire) (n : ℕ) (p : Vec3) :
    Vec3 :=
  (mu0 * w.current / (4 * Real.pi)) •
    GeneralWire.bsum_spec w.parametric_eq w.t1 ((w.t2 - w.t1) / (n : ℝ)) p n

/-! ### MagneticDipole -/

/-- A magnetic dipole: moment vector `moment` at position `p0`
(SI numeric values, as stored by `MagneticDipole.__init__`). -/
structure MagneticDipole where
  moment : Vec3
  p0 : Vec3

/-- `MagneticDipole.magnetic_field`:
`B = mu0/4/pi * (3*r*np.dot(m, r)/norm(r)**5 - m/norm(r)**3)` with
`r = p - p0`, `m = moment`. -/
noncomputable def MagneticDipole.magnetic_field (d : MagneticDipole) (p : Vec3) : Vec3 :=
  let r := p - d.p0
  let m := d.moment
  (mu0 / 4 / Real.pi) •
    ((3 * dot m r / norm r ^ 5) • r - (norm r ^ 3)⁻¹ • m)

/-- The dipole field as the spec writes it:
`B = (μ0/4π) · [3r(m·r)/|r|^5 − m/|r|^3]`. -/
noncomputable def MagneticDipole.field_spec (d : MagneticDipole) (p : Vec3) : Vec3 :=
  let r := p - d.p0
  let m := d.moment
  (mu0 / (4 * Real.pi)) •
    ((3 * dot m r / norm r ^ 5) • r - (norm r ^ 3)⁻¹ • m)

/-! ### FiniteStraightWire -/

/-- A straight wire segment from `p1` to `p2` carrying `current`
(positive current flows `p1 → p2`). -/
structure FiniteStraightWire where
  p1 : Vec3
  p2 : Vec3
  current : ℝ

open scoped Classical in
/-- `FiniteStraightWire.__init__`: raises `ValueError` when
`np.all(p1 == p2)`, i.e. when the endpoints coincide. -/
noncomputable def FiniteStraightWire.make (p1 p2 : Vec3) (current : ℝ) :
    Option FiniteStraightWire :=
  if p1 = p2 then none else some ⟨p1, p2, current⟩

/-- The foot of the perpendicular computed by
`FiniteStraightWire.magnetic_field`:
`pf = p1 + p2_p1 * (np.dot(p - p1, p2_p1) / np.dot(p2_p1, p2_p1))`. -/
noncomputable def FiniteStraightWire.foot (w : FiniteStraightWire) (p : Vec3) :
    Vec3 :=
  w.p1 + (dot (p - w.p1) (w.p2 - w.p1) / dot (w.p2 - w.p1) (w.p2 - w.p1)) •
    (w.p2 - w.p1)

/-- `FiniteStraightWire.magnetic_field`:
`B = B_unit/norm(p-pf)*(cos_theta_1 - cos_theta_2)*mu0/4/pi*current` with
`cos_theta_i = np.dot(p - pi, p2_p1)/norm(p - pi)/norm(p2_p1)` and
`B_unit = cross(p2_p1, p - pf)` normalized. -/
noncomputable def FiniteStraightWire.magnetic_field (w : FiniteStraightWire)
    (p : Vec3) : Vec3 :=
  ((norm (p - w.foot p))⁻¹ *
      (dot (p - w.p1) (w.p2 - w.p1) / norm (p - w.p1) / norm (w.p2 - w.p1) -
        dot (p - w.p2) (w.p2 - w.p1) / norm (p - w.p2) / norm (w.p2 - w.p1)) *
      (mu0 / 4 / Real.pi) * w.current) •
    ((norm (cross (w.p2 - w.p1) (p - w.foot p)))⁻¹ •
      cross (w.p2 - w.p1) (p - w.foot p))

/-- The finite-segment field as the spec writes it: magnitude
`(μ0·I/4π)·(cosθ1 − cosθ2)/|p − pf|` along the normalized direction
`(endpoint_b − endpoint_a) × (p − pf)`, with the direction cosines
`cosθi = (p − endpoint_i)·(b − a)/(|p − endpoint_i|·|b − a|)`. -/
noncomputable def FiniteStraightWire.field_spec (w : FiniteStraightWire)
    (p : Vec3) : Vec3 :=
  (mu0 * w.current / (4 * Real.pi) *
      (dot (p - w.p1) (w.p2 - w.p1) / (norm (p - w.p1) * norm (w.p2 - w.p1)) -
        dot (p - w.p2) (w.p2 - w.p1) / (norm (p - w.p2) * norm (w.p2 - w.p1))) /
      norm (p - w.foot p)) •
    ((norm (cross (w.p2 - w.p1) (p - w.foot p)))⁻¹ •
      cross (w.p2 - w.p1) (p - w.foot p))

/-- `FiniteStraightWire.to_GeneralWire`:
`GeneralWire(lambda t: p1+(p2-p1)*t, 0, 1, current)`. -/
noncomputable def FiniteStraightWire.to_GeneralWire (w : FiniteStraightWire) :
    Option GeneralWire :=
  GeneralWire.make (fun t => w.p1 + t • (w.p2 - w.p1)) 0 1 w.current

/-! ### InfiniteStraightWire -/

/-- An infinite straight wire: `direction` is stored normalized
(`direction/np.linalg.norm(direction)`, no zero check), `p0` is a point on
the wire. -/
structure InfiniteStraightWire where
  direction : Vec3
  p0 : Vec3
  current : ℝ

/-- `InfiniteStraightWire.__init__`: always succeeds; the direction is
normalized with an unguarded division. -/
noncomputable def InfiniteStraightWire.make (direction p0 : Vec3)
    (current : ℝ) : InfiniteStraightWire :=
  ⟨(norm direction)⁻¹ • direction, p0, current⟩

/-- `InfiniteStraightWire.magnetic_field`:
`r = cross(direction, p - p0)`; `B = r/norm(r)/norm(r)*mu0/2/pi*current`. -/
noncomputable def InfiniteStraightWire.magnetic_field (w : InfiniteStraightWire)
    (p : Vec3) : Vec3 :=
  ((norm (cross w.direction (p - w.p0)))⁻¹ *
      (norm (cross w.direction (p - w.p0)))⁻¹ * (mu0 / 2 / Real.pi) *
      w.current) •
    cross w.direction (p - w.p0)

/-- The infinite-wire field as the spec writes it: magnitude
`μ0·I/(2π·r)`, direction `r_vec/r` with `r_vec = direction × (p − p0)`,
`r = |r_vec|`. -/
noncomputable def InfiniteStraightWire.field_spec (w : InfiniteStraightWire)
    (p : Vec3) : Vec3 :=
  (mu0 * w.current / (2 * Real.pi * norm (cross w.direction (p - w.p0)))) •
    ((norm (cross w.direction (p - w.p0)))⁻¹ • cross w.direction (p - w.p0))

/-! ### CircularWire -/

/-- The in-plane axes derived by `CircularWire.__init__` from the (already
normalized) normal: `axis_x = cross(z, normal)`, `axis_y = cross(normal,
axis_x)`; if `norm(axis_x) == 0` fall back to the world x/y axes, else
normalize both. -/
noncomputable def circularAxes (nh : Vec3) : Vec3 × Vec3 :=
  if norm (cross ⟨0, 0, 1⟩ nh) = 0 then (⟨1, 0, 0⟩, ⟨0, 1, 0⟩)
  else ((norm (cross ⟨0, 0, 1⟩ nh))⁻¹ • cross ⟨0, 0, 1⟩ nh,
    (norm (cross nh (cross ⟨0, 0, 1⟩ nh)))⁻¹ • cross nh (cross ⟨0, 0, 1⟩ nh))

/-- A circular loop: `normal` is stored normalized (unguarded division),
`nodes` is the cached `roots_legendre(n)` node/weight list on `[-1, 1]`. -/
structure CircularWire where
  normal : Vec3
  center : Vec3
  radius : ℝ
  current : ℝ
  nodes : List (ℝ × ℝ)

/-- `CircularWire.__init__`: normalizes `normal` (no zero check), then
raises `ValueError` unless `radius > 0`. -/
noncomputable def CircularWire.make (normal center : Vec3) (radius current : ℝ)
    (nodes : List (ℝ × ℝ)) : Option CircularWire :=
  if 0 < radius then
    some ⟨(norm normal)⁻¹ • normal, center, radius, current, nodes⟩
  else none

/-- The derived in-plane axis `axis_x` of a constructed wire. -/
noncomputable def CircularWire.axis_x (w : CircularWire) : Vec3 :=
  (circularAxes w.normal).1

/-- The derived in-plane axis `axis_y` of a constructed wire. -/
noncomputable def CircularWire.axis_y (w : CircularWire) : Vec3 :=
  (circularAxes w.normal).2

/-- The parametric equation of the loop:
`curve(t) = radius*(cos(t)*axis_x + sin(t)*axis_y) + center`. -/
noncomputable def CircularWire.curve (w : CircularWire) (t : ℝ) : Vec3 :=
  w.radius • (Real.cos t • w.axis_x + Real.sin t • w.axis_y) + w.center

/-- The integrand of `CircularWire.magnetic_field` at angle `t`:
`dl = radius*(-sin(t)*axis_x + cos(t)*axis_y)`, `r = p - curve(t)`,
`ft = cross(dl, r)/norm(r)**3`. -/
noncomputable def CircularWire.integrand (w : CircularWire) (p : Vec3) (t : ℝ) :
    Vec3 :=
  (norm (p - w.curve t) ^ 3)⁻¹ •
    cross (w.radius • ((-Real.sin t) • w.axis_x + Real.cos t • w.axis_y))
      (p - w.curve t)

/-- Sum of a list of vectors (the `np.matmul(w, ft)` weighted reduction). -/
def vsum : List Vec3 → Vec3
  | [] => 0
  | v :: rest => v + vsum rest

/-- `CircularWire.magnetic_field`: nodes `x` are rescaled to `t = x*pi`, the
weighted integrand sum is scaled by `pi*mu0/4/pi*current`. -/
noncomputable def CircularWire.magnetic_field (w : CircularWire) (p : Vec3) :
    Vec3 :=
  (Real.pi * (mu0 / 4 / Real.pi) * w.current) •
    vsum (w.nodes.map fun xw => xw.2 • w.integrand p (xw.1 * Real.pi))

/-- The quadrature field as the spec writes it:
`π · Σ_k w_k f_k · μ0·I/4π` with
`f_k = (dl/dθ(t_k) × (p − l(t_k)))/|p − l(t_k)|³` at `t_k = x_k·π`. -/
noncomputable def CircularWire.field_spec (w : CircularWire) (p : Vec3) :
    Vec3 :=
  (Real.pi * (mu0 * w.current / (4 * Real.pi))) •
    vsum (w.nodes.map fun xw =>
      xw.2 • ((norm (p - w.curve (xw.1 * Real.pi)) ^ 3)⁻¹ •
        cross (w.radius • ((-Real.sin (xw.1 * Real.pi)) • w.axis_x +
          Real.cos (xw.1 * Real.pi) • w.axis_y))
          (p - w.curve (xw.1 * Real.pi))))

/-- `CircularWire.to_GeneralWire`:
`GeneralWire(self.curve, -np.pi, np.pi, current)`. -/
noncomputable def CircularWire.to_GeneralWire (w : CircularWire) :
    Option GeneralWire :=
  GeneralWire.make w.curve (-Real.pi) Real.pi w.current

/-- A unit loop whose normal is the (already unit) world z-axis, with an
empty node cache, as built by `CircularWire.make`. -/
noncomputable def unitLoopZ : CircularWire :=
  ⟨(Vec3.norm ⟨0, 0, 1⟩)⁻¹ • (⟨0, 0, 1⟩ : Vec3), ⟨0, 0, 0⟩, 1, 1, []⟩

/-! ## Lemmas -/

namespace Vec3

theorem ext3 {a b : Vec3} (hx : a.x = b.x) (hy : a.y = b.y) (hz : a.z = b.z) :
    a = b := by
  cases a; cases b; cases hx; cases hy; cases hz; rfl

@[simp] theorem zero_x : (0 : Vec3).x = 0 := rfl
@[simp] theorem zero_y : (0 : Vec3).y = 0 := rfl
@[simp] theorem zero_z : (0 : Vec3).z = 0 := rfl
@[simp] theorem add_x (a b : Vec3) : (a + b).x = a.x + b.x := rfl
@[simp] theorem add_y (a b : Vec3) : (a + b).y = a.y + b.y := rfl
@[simp] theorem add_z (a b : Vec3) : (a + b).z = a.z + b.z := rfl
@[simp] theorem sub_x (a b : Vec3) : (a - b).x = a.x - b.x := rfl
@[simp] theorem sub_y (a b : Vec3) : (a - b).y = a.y - b.y := rfl
@[simp] theorem sub_z (a b : Vec3) : (a - b).z = a.z - b.z := rfl
@[simp] theorem neg_x (a : Vec3) : (-a).x = -a.x := rfl
@[simp] theorem neg_y (a : Vec3) : (-a).y = -a.y := rfl
@[simp] theorem neg_z (a : Vec3) : (-a).z = -a.z := rfl
@[simp] theorem smul_x (c : ℝ) (a : Vec3) : (c • a).x = c * a.x := rfl
@[simp] theorem smul_y (c : ℝ) (a : Vec3) : (c • a).y = c * a.y := rfl
@[simp] theorem smul_z (c : ℝ) (a : Vec3) : (c • a).z = c * a.z := rfl
@[simp] theorem mk_x (a b c : ℝ) : (Vec3.mk a b c).x = a := rfl
@[simp] theorem mk_y (a b c : ℝ) : (Vec3.mk a b c).y = b := rfl
@[simp] theorem mk_z (a b c : ℝ) : (Vec3.mk a b c).z = c := rfl

@[simp] theorem cross_x (a b : Vec3) : (cross a b).x = a.y * b.z - a.z * b.y := rfl
@[simp] theorem cross_y (a b : Vec3) : (cross a b).y = a.z * b.x - a.x * b.z := rfl
@[simp] theorem cross_z (a b : Vec3) : (cross a b).z = a.x * b.y - a.y * b.x := rfl

theorem dot_self_nonneg (a : Vec3) : 0 ≤ dot a a := by
  unfold dot; nlinarith [sq_nonneg a.x, sq_nonneg a.y, sq_nonneg a.z]

theorem dot_self_eq_zero_iff {a : Vec3} : dot a a = 0 ↔ a = 0 := by
  unfold dot
  constructor
  · intro h
    refine ext3 ?_ ?_ ?_ <;> · simp only [zero_x, zero_y, zero_z]; nlinarith
  · intro h; subst h; simp

theorem norm_nonneg (a : Vec3) : 0 ≤ norm a := Real.sqrt_nonneg _

theorem norm_eq_zero_iff {a : Vec3} : norm a = 0 ↔ a = 0 := by
  unfold norm
  rw [Real.sqrt_eq_zero (dot_self_nonneg a)]
  exact dot_self_eq_zero_iff

theorem sq_norm (a : Vec3) : norm a ^ 2 = dot a a := by
  unfold norm; rw [Real.sq_sqrt (dot_self_nonneg a)]

theorem norm_pos_of_ne_zero {a : Vec3} (h : a ≠ 0) : 0 < norm a :=
  lt_of_le_of_ne (norm_nonneg a) fun h0 => h (norm_eq_zero_iff.mp h0.symm)

theorem sub_eq_zero_iff {a b : Vec3} : a - b = 0 ↔ a = b := by
  constructor
  · intro h
    refine ext3 ?_ ?_ ?_
    · have := congrArg Vec3.x h; simpa [sub_eq_zero] using this
    · have := congrArg Vec3.y h; simpa [sub_eq_zero] using this
    · have := congrArg Vec3.z h; simpa [sub_eq_zero] using this
  · intro h; subst h; refine ext3 ?_ ?_ ?_ <;> simp

theorem norm_smul (c : ℝ) (v : Vec3) : norm (c • v) = |c| * norm v := by
  unfold norm dot
  have h : c * v.x * (c * v.x) + c * v.y * (c * v.y) + c * v.z * (c * v.z) =
      c ^ 2 * (v.x * v.x + v.y * v.y + v.z * v.z) := by ring
  simp only [smul_x, smul_y, smul_z, h]
  rw [Real.sqrt_mul (sq_nonneg c), Real.sqrt_sq_eq_abs]

theorem norm_normalize {v : Vec3} (h : v ≠ 0) : norm ((norm v)⁻¹ • v) = 1 := by
  rw [norm_smul, abs_of_nonneg (inv_nonneg.mpr (norm_nonneg v)),
    inv_mul_cancel₀ (ne_of_gt (norm_pos_of_ne_zero h))]

theorem dot_cross_left (a b : Vec3) : dot (cross a b) a = 0 := by
  simp only [dot, cross_x, cross_y, cross_z]; ring

theorem dot_cross_right (a b : Vec3) : dot (cross a b) b = 0 := by
  simp only [dot, cross_x, cross_y, cross_z]; ring

/-- Lagrange identity: `|a × b|² = |a|²|b|² − (a·b)²`. -/
theorem dot_cross_self (a b : Vec3) :
    dot (cross a b) (cross a b) = dot a a * dot b b - dot a b ^ 2 := by
  simp only [dot, cross_x, cross_y, cross_z]; ring

@[simp] theorem norm_zero : norm (0 : Vec3) = 0 := by
  simp [norm, dot]

theorem dot_comm (a b : Vec3) : dot a b = dot b a := by
  simp only [dot]; ring

theorem dot_smul_left (c : ℝ) (a b : Vec3) : dot (c • a) b = c * dot a b := by
  simp only [dot, smul_x, smul_y, smul_z]; ring

theorem dot_sub_left (a b c : Vec3) : dot (a - b) c = dot a c - dot b c := by
  simp only [dot, sub_x, sub_y, sub_z]; ring

theorem dot_smul_right (c : ℝ) (a b : Vec3) : dot a (c • b) = c * dot a b := by
  simp only [dot, smul_x, smul_y, smul_z]; ring

theorem smul_smul3 (c d : ℝ) (v : Vec3) : c • d • v = (c * d) • v := by
  refine ext3 ?_ ?_ ?_ <;> simp <;> ring

theorem cross_ne_zero_of_orth {a b : Vec3} (ha : a ≠ 0) (hb : b ≠ 0)
    (horth : dot a b = 0) : cross a b ≠ 0 := by
  intro h
  have h0 : dot (cross a b) (cross a b) = 0 := by rw [h]; simp [dot]
  rw [dot_cross_self, horth] at h0
  have ha0 : dot a a ≠ 0 := fun h => ha (dot_self_eq_zero_iff.mp h)
  have hb0 : dot b b ≠ 0 := fun h => hb (dot_self_eq_zero_iff.mp h)
  have := mul_ne_zero ha0 hb0
  simp at h0
  rcases h0 with h0 | h0 <;> [exact ha0 h0; exact hb0 h0]

end Vec3

theorem mu0_div_4_pi : mu0 / 4 / Real.pi = 1 / 10000000 := by
  unfold mu0
  field_simp
  ring

theorem mu0_div_four_pi : mu0 / (4 * Real.pi) = 1 / 10000000 := by
  unfold mu0
  field_simp
  ring

/-- C2: the code's dipole field agrees exactly with the spec formula
`(μ0/4π)·[3r(m·r)/|r|^5 − m/|r|^3]` at every point distinct from the
dipole position. -/
theorem dipole_field_matches_spec (d : MagneticDipole) (p : Vec3)
    (hp : p ≠ d.p0) :
    d.magnetic_field p = d.field_spec p := by
  unfold MagneticDipole.magnetic_field MagneticDipole.field_spec
  rw [div_div]

/-- Witness for C2 at a concrete dipole and point. -/
theorem dipole_field_matches_spec_witness :
    MagneticDipole.magnetic_field ⟨⟨0, 0, 1⟩, ⟨0, 0, 0⟩⟩ ⟨1, 0, 0⟩ =
      MagneticDipole.field_spec ⟨⟨0, 0, 1⟩, ⟨0, 0, 0⟩⟩ ⟨1, 0, 0⟩ :=
  dipole_field_matches_spec ⟨⟨0, 0, 1⟩, ⟨0, 0, 0⟩⟩ ⟨1, 0, 0⟩ (by
    intro h
    have := congrArg Vec3.x h
    simp at this)

/-- C3: at every point off the infinite line through the endpoints, the
code's finite-wire field equals the spec's closed form — the magnitude
`(μ0·I/4π)·(cosθ1 − cosθ2)/|p − pf|` along the normalized direction
`(endpoint_b − endpoint_a) × (p − pf)` — and the computed `pf` really is
the orthogonal projection of `p` onto that line (it lies on the line and
`p − pf` is perpendicular to it). -/
theorem finiteWire_matches_spec (w : FiniteStraightWire) (p : Vec3)
    (hab : w.p1 ≠ w.p2)
    (hline : ∀ s : ℝ, p ≠ w.p1 + s • (w.p2 - w.p1)) :
    w.magnetic_field p = w.field_spec p ∧
      dot (p - w.foot p) (w.p2 - w.p1) = 0 ∧
      ∃ s : ℝ, w.foot p = w.p1 + s • (w.p2 - w.p1) := by
  have hu : w.p2 - w.p1 ≠ 0 := fun h => hab (sub_eq_zero_iff.mp h).symm
  have huu : dot (w.p2 - w.p1) (w.p2 - w.p1) ≠ 0 :=
    fun h => hu (dot_self_eq_zero_iff.mp h)
  refine ⟨?_, ?_, ⟨_, rfl⟩⟩
  · unfold FiniteStraightWire.magnetic_field FiniteStraightWire.field_spec
    congr 1
    ring
  · unfold FiniteStraightWire.foot
    have e1 : p - (w.p1 +
        (dot (p - w.p1) (w.p2 - w.p1) / dot (w.p2 - w.p1) (w.p2 - w.p1)) •
          (w.p2 - w.p1)) =
        (p - w.p1) -
          (dot (p - w.p1) (w.p2 - w.p1) / dot (w.p2 - w.p1) (w.p2 - w.p1)) •
            (w.p2 - w.p1) := by
      refine ext3 ?_ ?_ ?_ <;> simp <;> ring
    rw [e1, dot_sub_left, dot_smul_left, div_mul_cancel₀ _ huu, sub_self]

/-- Witness for C3: the unit segment on the x-axis, evaluated at `(0,1,0)`. -/
theorem finiteWire_matches_spec_witness :
    (FiniteStraightWire.magnetic_field ⟨⟨0, 0, 0⟩, ⟨1, 0, 0⟩, 1⟩ ⟨0, 1, 0⟩ =
        FiniteStraightWire.field_spec ⟨⟨0, 0, 0⟩, ⟨1, 0, 0⟩, 1⟩ ⟨0, 1, 0⟩) ∧
      dot ((⟨0, 1, 0⟩ : Vec3) -
          FiniteStraightWire.foot ⟨⟨0, 0, 0⟩, ⟨1, 0, 0⟩, 1⟩ ⟨0, 1, 0⟩)
        ((⟨1, 0, 0⟩ : Vec3) - ⟨0, 0, 0⟩) = 0 ∧
      ∃ s : ℝ, FiniteStraightWire.foot ⟨⟨0, 0, 0⟩, ⟨1, 0, 0⟩, 1⟩ ⟨0, 1, 0⟩ =
        (⟨0, 0, 0⟩ : Vec3) + s • ((⟨1, 0, 0⟩ : Vec3) - ⟨0, 0, 0⟩) :=
  finiteWire_matches_spec ⟨⟨0, 0, 0⟩, ⟨1, 0, 0⟩, 1⟩ ⟨0, 1, 0⟩
    (by intro h; have := congrArg Vec3.x h; simp at this)
    (by intro s h; have := congrArg Vec3.y h; simp at this)

/-- C4: at every point off the loop, the code's quadrature field equals the
spec's weighted sum `π · Σ_k w_k (dl/dθ(t_k) × r_k)/|r_k|³ · μ0·I/4π` over
the cached nodes rescaled by `π`. -/
theorem circularWire_matches_spec (w : CircularWire) (p : Vec3)
    (hp : ∀ t : ℝ, p ≠ w.curve t) :
    w.magnetic_field p = w.field_spec p := by
  unfold CircularWire.magnetic_field CircularWire.field_spec
    CircularWire.integrand
  congr 1
  field_simp
  ring

/-- Helper: the in-plane axes for the vertical unit normal. -/
theorem circularAxes_zunit : circularAxes ⟨0, 0, 1⟩ = (⟨1, 0, 0⟩, ⟨0, 1, 0⟩) := by
  unfold circularAxes
  rw [if_pos]
  have h : cross ⟨0, 0, 1⟩ ⟨0, 0, 1⟩ = (0 : Vec3) := by
    refine ext3 ?_ ?_ ?_ <;> simp
  rw [h, norm_zero]

/-- Witness for C4: a unit loop in the xy-plane (with an empty node cache),
evaluated at `(0,0,2)`, which is off the loop plane. -/
theorem circularWire_matches_spec_witness :
    CircularWire.magnetic_field ⟨⟨0, 0, 1⟩, ⟨0, 0, 0⟩, 1, 1, []⟩ ⟨0, 0, 2⟩ =
      CircularWire.field_spec ⟨⟨0, 0, 1⟩, ⟨0, 0, 0⟩, 1, 1, []⟩ ⟨0, 0, 2⟩ :=
  circularWire_matches_spec ⟨⟨0, 0, 1⟩, ⟨0, 0, 0⟩, 1, 1, []⟩ ⟨0, 0, 2⟩ (by
    intro t h
    have hz := congrArg Vec3.z h
    simp [CircularWire.curve, CircularWire.axis_x, CircularWire.axis_y,
      circularAxes_zunit] at hz)

/-- C5: at every point off the wire axis, the code's infinite-wire field
equals the spec's form — magnitude `μ0·I/(2π·r)` along the unit direction
`r_vec/r`, `r_vec = direction × (p − p0)` — and that direction really has
norm 1. -/
theorem infiniteWire_matches_spec (w : InfiniteStraightWire) (p : Vec3)
    (hoff : cross w.direction (p - w.p0) ≠ 0) :
    w.magnetic_field p = w.field_spec p ∧
      norm ((norm (cross w.direction (p - w.p0)))⁻¹ •
        cross w.direction (p - w.p0)) = 1 := by
  have hn : norm (cross w.direction (p - w.p0)) ≠ 0 :=
    ne_of_gt (norm_pos_of_ne_zero hoff)
  constructor
  · unfold InfiniteStraightWire.magnetic_field InfiniteStraightWire.field_spec
    rw [smul_smul3]
    congr 1
    simp only [div_eq_mul_inv, mul_inv]
    ring
  · exact norm_normalize hoff

/-- Witness for C5: the z-axis wire evaluated at `(1,0,0)`. -/
theorem infiniteWire_matches_spec_witness :
    (InfiniteStraightWire.magnetic_field ⟨⟨0, 0, 1⟩, ⟨0, 0, 0⟩, 1⟩ ⟨1, 0, 0⟩ =
        InfiniteStraightWire.field_spec ⟨⟨0, 0, 1⟩, ⟨0, 0, 0⟩, 1⟩ ⟨1, 0, 0⟩) ∧
      norm ((norm (cross (⟨0, 0, 1⟩ : Vec3) ((⟨1, 0, 0⟩ : Vec3) - ⟨0, 0, 0⟩)))⁻¹ •
        cross (⟨0, 0, 1⟩ : Vec3) ((⟨1, 0, 0⟩ : Vec3) - ⟨0, 0, 0⟩)) = 1 :=
  infiniteWire_matches_spec ⟨⟨0, 0, 1⟩, ⟨0, 0, 0⟩, 1⟩ ⟨1, 0, 0⟩
    (by intro h; have := congrArg Vec3.y h; simp [cross] at this)

/-- C6: construction fails exactly in the degenerate-geometry cases:
`GeneralWire` iff `¬(t1 < t2)`, `FiniteStraightWire` iff the endpoints
coincide, `CircularWire` iff `¬(radius > 0)`; otherwise an object is
produced. -/
theorem constructors_reject_degenerate_geometry (f : ℝ → Vec3)
    (t1 t2 c1 : ℝ) (a b : Vec3) (c2 : ℝ) (nrm ctr : Vec3) (r c3 : ℝ)
    (nodes : List (ℝ × ℝ)) :
    ((GeneralWire.make f t1 t2 c1).isSome ↔ t1 < t2) ∧
      ((FiniteStraightWire.make a b c2).isSome ↔ a ≠ b) ∧
      ((CircularWire.make nrm ctr r c3 nodes).isSome ↔ 0 < r) := by
  refine ⟨?_, ?_, ?_⟩
  · unfold GeneralWire.make
    split_ifs with h <;> simp [h]
  · unfold FiniteStraightWire.make
    split_ifs with h <;> simp [h]
  · unfold CircularWire.make
    split_ifs with h <;> simp [h]

/-- C7: `to_GeneralWire` produces exactly the documented fresh
`GeneralWire`: for a finite segment the curve `t ↦ a + t·(b−a)` on `[0,1]`
with the same current; for a circular loop the loop's own analytic curve on
`[−π, π]` with the same current. -/
theorem to_GeneralWire_exact (w : FiniteStraightWire) (w2 : CircularWire) :
    w.to_GeneralWire =
        some ⟨fun t => w.p1 + t • (w.p2 - w.p1), 0, 1, w.current⟩ ∧
      w2.to_GeneralWire = some ⟨w2.curve, -Real.pi, Real.pi, w2.current⟩ := by
  constructor
  · unfold FiniteStraightWire.to_GeneralWire GeneralWire.make
    rw [if_pos (show (0 : ℝ) < 1 by norm_num)]
  · unfold CircularWire.to_GeneralWire GeneralWire.make
    rw [if_pos (show -Real.pi < Real.pi by linarith [Real.pi_pos])]

/-- C8: after construction from a nonzero normal, the derived `axis_x` and
`axis_y` are unit vectors, mutually orthogonal, and orthogonal to the
normalized normal; when the cross product of the world z-axis with the
normal vanishes they are exactly `(1,0,0)` and `(0,1,0)`. -/
theorem circularWire_axes_orthonormal (normal center : Vec3) (r c : ℝ)
    (nodes : List (ℝ × ℝ)) (w : CircularWire) (hn : normal ≠ 0) (hr : 0 < r)
    (hw : CircularWire.make normal center r c nodes = some w) :
    norm w.axis_x = 1 ∧ norm w.axis_y = 1 ∧ dot w.axis_x w.axis_y = 0 ∧
      dot w.axis_x w.normal = 0 ∧ dot w.axis_y w.normal = 0 ∧
      (cross ⟨0, 0, 1⟩ w.normal = 0 →
        w.axis_x = ⟨1, 0, 0⟩ ∧ w.axis_y = ⟨0, 1, 0⟩) := by
  unfold CircularWire.make at hw
  rw [if_pos hr] at hw
  injection hw with hw
  subst hw
  simp only [CircularWire.axis_x, CircularWire.axis_y]
  set nh : Vec3 := (norm normal)⁻¹ • normal with hnhdef
  have hnh1 : norm nh = 1 := norm_normalize hn
  have hnh0 : nh ≠ 0 := by
    intro h0; rw [h0, norm_zero] at hnh1; norm_num at hnh1
  by_cases hdeg : cross ⟨0, 0, 1⟩ nh = 0
  · have haxes : circularAxes nh = (⟨1, 0, 0⟩, ⟨0, 1, 0⟩) := by
      unfold circularAxes
      rw [if_pos (by rw [hdeg, norm_zero])]
    have hx : nh.x = 0 := by
      have := congrArg Vec3.y hdeg
      simpa using this
    have hy : nh.y = 0 := by
      have := congrArg Vec3.x hdeg
      simpa using this
    rw [haxes]
    refine ⟨?_, ?_, ?_, ?_, ?_, fun _ => ⟨rfl, rfl⟩⟩ <;>
      simp [Vec3.norm, Vec3.dot, hx, hy, Real.sqrt_one]
  · have hnrmax : norm (cross ⟨0, 0, 1⟩ nh) ≠ 0 :=
      ne_of_gt (norm_pos_of_ne_zero hdeg)
    have haxes : circularAxes nh =
        ((norm (cross ⟨0, 0, 1⟩ nh))⁻¹ • cross ⟨0, 0, 1⟩ nh,
          (norm (cross nh (cross ⟨0, 0, 1⟩ nh)))⁻¹ •
            cross nh (cross ⟨0, 0, 1⟩ nh)) := by
      unfold circularAxes
      rw [if_neg hnrmax]
    have hperp : dot nh (cross ⟨0, 0, 1⟩ nh) = 0 := by
      rw [dot_comm]; exact dot_cross_right _ _
    have hay0 : cross nh (cross ⟨0, 0, 1⟩ nh) ≠ 0 :=
      cross_ne_zero_of_orth hnh0 hdeg hperp
    rw [haxes]
    refine ⟨norm_normalize hdeg, norm_normalize hay0, ?_, ?_, ?_,
      fun h => absurd h hdeg⟩
    · show dot ((norm (cross ⟨0, 0, 1⟩ nh))⁻¹ • cross ⟨0, 0, 1⟩ nh)
        ((norm (cross nh (cross ⟨0, 0, 1⟩ nh)))⁻¹ •
          cross nh (cross ⟨0, 0, 1⟩ nh)) = 0
      rw [dot_smul_left, dot_smul_right]
      have h0 : dot (cross ⟨0, 0, 1⟩ nh) (cross nh (cross ⟨0, 0, 1⟩ nh)) = 0 := by
        rw [dot_comm]; exact dot_cross_right _ _
      rw [h0]; ring
    · show dot ((norm (cross ⟨0, 0, 1⟩ nh))⁻¹ • cross ⟨0, 0, 1⟩ nh) nh = 0
      rw [dot_smul_left, dot_cross_right]; ring
    · show dot ((norm (cross nh (cross ⟨0, 0, 1⟩ nh)))⁻¹ •
        cross nh (cross ⟨0, 0, 1⟩ nh)) nh = 0
      rw [dot_smul_left, dot_cross_left]; ring

/-- Witness for C8: the loop constructed from normal `(0,0,1)`. -/
theorem circularWire_axes_orthonormal_witness :
    norm unitLoopZ.axis_x = 1 ∧ norm unitLoopZ.axis_y = 1 ∧
      dot unitLoopZ.axis_x unitLoopZ.axis_y = 0 ∧
      dot unitLoopZ.axis_x unitLoopZ.normal = 0 ∧
      dot unitLoopZ.axis_y unitLoopZ.normal = 0 ∧
      (cross ⟨0, 0, 1⟩ unitLoopZ.normal = 0 →
        unitLoopZ.axis_x = ⟨1, 0, 0⟩ ∧ unitLoopZ.axis_y = ⟨0, 1, 0⟩) :=
  circularWire_axes_orthonormal ⟨0, 0, 1⟩ ⟨0, 0, 0⟩ 1 1 [] unitLoopZ
    (by intro h; have := congrArg Vec3.z h; simp at this)
    (by norm_num)
    (by
      unfold CircularWire.make unitLoopZ
      rw [if_pos (show (0 : ℝ) < 1 by norm_num)])

/-- C9: negating the dipole moment negates the dipole field exactly, and
negating the current negates the infinite-wire field exactly. -/
theorem field_antisymmetry (d : MagneticDipole) (p : Vec3) (hp : p ≠ d.p0)
    (w : InfiniteStraightWire) (q : Vec3)
    (hq : cross w.direction (q - w.p0) ≠ 0) :
    MagneticDipole.magnetic_field ⟨-d.moment, d.p0⟩ p =
        -(d.magnetic_field p) ∧
      InfiniteStraightWire.magnetic_field ⟨w.direction, w.p0, -w.current⟩ q =
        -(w.magnetic_field q) := by
  constructor
  · unfold MagneticDipole.magnetic_field
    refine ext3 ?_ ?_ ?_ <;> simp [dot] <;> ring
  · unfold InfiniteStraightWire.magnetic_field
    refine ext3 ?_ ?_ ?_ <;> simp

/-- Witness for C9: a unit dipole at the origin and the z-axis unit wire,
both evaluated at `(1,0,0)`. -/
theorem field_antisymmetry_witness :
    (MagneticDipole.magnetic_field ⟨-(⟨0, 0, 1⟩ : Vec3), ⟨0, 0, 0⟩⟩ ⟨1, 0, 0⟩ =
        -(MagneticDipole.magnetic_field ⟨⟨0, 0, 1⟩, ⟨0, 0, 0⟩⟩ ⟨1, 0, 0⟩)) ∧
      InfiniteStraightWire.magnetic_field ⟨⟨0, 0, 1⟩, ⟨0, 0, 0⟩, -(1 : ℝ)⟩
          ⟨1, 0, 0⟩ =
        -(InfiniteStraightWire.magnetic_field ⟨⟨0, 0, 1⟩, ⟨0, 0, 0⟩, 1⟩
          ⟨1, 0, 0⟩) :=
  field_antisymmetry ⟨⟨0, 0, 1⟩, ⟨0, 0, 0⟩⟩ ⟨1, 0, 0⟩
    (by intro h; have := congrArg Vec3.x h; simp at this)
    ⟨⟨0, 0, 1⟩, ⟨0, 0, 0⟩, 1⟩ ⟨1, 0, 0⟩
    (by intro h; have := congrArg Vec3.y h; simp at this)

/-- C10: a zero direction/normal vector is NOT rejected: the
infinite-wire constructor always succeeds and stores the unguarded
quotient (which in exact arithmetic collapses to the zero vector, i.e. no
usable direction), and the circular-wire constructor with a zero normal
still succeeds whenever the radius is positive. -/
theorem zero_direction_normal_accepted (p0 : Vec3) (I : ℝ) (ctr : Vec3)
    (r c : ℝ) (nodes : List (ℝ × ℝ)) (hr : 0 < r) :
    (InfiniteStraightWire.make ⟨0, 0, 0⟩ p0 I).direction = ⟨0, 0, 0⟩ ∧
      (CircularWire.make ⟨0, 0, 0⟩ ctr r c nodes).isSome := by
  constructor
  · show (Vec3.norm ⟨0, 0, 0⟩)⁻¹ • (⟨0, 0, 0⟩ : Vec3) = (⟨0, 0, 0⟩ : Vec3)
    refine ext3 ?_ ?_ ?_ <;> simp
  · unfold CircularWire.make
    rw [if_pos hr]
    rfl

/-- Witness for C10 at radius 1. -/
theorem zero_direction_normal_accepted_witness :
    (InfiniteStraightWire.make ⟨0, 0, 0⟩ ⟨0, 0, 0⟩ 1).direction =
        (⟨0, 0, 0⟩ : Vec3) ∧
      (CircularWire.make ⟨0, 0, 0⟩ ⟨0, 0, 0⟩ 1 1 []).isSome :=
  zero_direction_normal_accepted ⟨0, 0, 0⟩ 1 ⟨0, 0, 0⟩ 1 1 [] (by norm_num)

/-! ### C1: the discretization loop uses the segment endpoint, not the
midpoint.  In the loop body `p1 = p2` is executed before
`R = p - (p2 + p1) / 2`, so both operands of the average are the new
endpoint and `R = p - p2`.  The code's own docstring (and the spec) state
`R_i = p − (l(t_{i-1})+l(t_i))/2`.  Concrete failing input: the straight
wire `l(t) = (t,0,0)` on `[0,1]`, current 1, `n = 1`, evaluated at
`p = (0,0,1)`. -/

/-- The code's value on the failing input: its only term has
`R = (0,0,1) − (1,0,0) = (−1,0,1)`, `|R| = √2`, `dl × R = (0,−1,0)`. -/
theorem bugWire_code_y :
    (GeneralWire.magnetic_field ⟨fun t => ⟨t, 0, 0⟩, 0, 1, 1⟩ 1 ⟨0, 0, 1⟩).y =
      -((1 : ℝ) / 10000000) * (Real.sqrt 2 ^ 3)⁻¹ := by
  show (GeneralWire.magnetic_field ⟨fun t => ⟨t, 0, 0⟩, 0, 1, 1⟩ (0 + 1) ⟨0, 0, 1⟩).y = _
  simp only [GeneralWire.magnetic_field, GeneralWire.bsum, GeneralWire.term_code,
    Vec3.norm, Vec3.dot]
  norm_num [mu0_div_4_pi]

/-- The spec's value on the failing input: its only term has
`R = (0,0,1) − (1/2,0,0) = (−1/2,0,1)`, `|R| = √(5/4)`, `dl × R = (0,−1,0)`. -/
theorem bugWire_spec_y :
    (GeneralWire.field_spec ⟨fun t => ⟨t, 0, 0⟩, 0, 1, 1⟩ 1 ⟨0, 0, 1⟩).y =
      -((1 : ℝ) / 10000000) * (Real.sqrt (5 / 4) ^ 3)⁻¹ := by
  show (GeneralWire.field_spec ⟨fun t => ⟨t, 0, 0⟩, 0, 1, 1⟩ (0 + 1) ⟨0, 0, 1⟩).y = _
  simp only [GeneralWire.field_spec, GeneralWire.bsum_spec, GeneralWire.term_spec,
    Vec3.norm, Vec3.dot]
  norm_num [mu0_div_four_pi]

/-- C1 (code bug): on the concrete input above, `GeneralWire.magnetic_field`
differs from the spec's (and the code's own docstring's) midpoint-rule
value: the code divides by `√2³` where the spec divides by `√(5/4)³`. -/
theorem generalWire_endpoint_bug :
    GeneralWire.magnetic_field ⟨fun t => ⟨t, 0, 0⟩, 0, 1, 1⟩ 1 ⟨0, 0, 1⟩ ≠
      GeneralWire.field_spec ⟨fun t => ⟨t, 0, 0⟩, 0, 1, 1⟩ 1 ⟨0, 0, 1⟩ := by
  intro h
  have hy := congrArg Vec3.y h
  rw [bugWire_code_y, bugWire_spec_y] at hy
  have h2 := inv_injective (mul_left_cancel₀
    (show -((1 : ℝ) / 10000000) ≠ 0 by norm_num) hy)
  have e2 : Real.sqrt 2 ^ 2 = 2 := Real.sq_sqrt (by norm_num)
  have e5 : Real.sqrt (5 / 4) ^ 2 = 5 / 4 := Real.sq_sqrt (by norm_num)
  have ha3 : Real.sqrt 2 ^ 3 = 2 * Real.sqrt 2 := by
    rw [pow_succ, e2]
  have hb3 : Real.sqrt (5 / 4) ^ 3 = 5 / 4 * Real.sqrt (5 / 4) := by
    rw [pow_succ, e5]
  rw [ha3, hb3] at h2
  have h8 : ((2 : ℝ) * Real.sqrt 2) ^ 2 = 8 := by rw [mul_pow, e2]; norm_num
  rw [h2, mul_pow, e5] at h8
  norm_num at h8

end Magnetostatics
